import Mathlib

/-!
Verification of the tonbo LSM storage-engine core against its
natural-language specification.

The development shallowly embeds the code of
`src/inmem/mutable.rs`, `src/compaction/mod.rs` and
`src/ondisk/sstable.rs`:

* the crossbeam `SkipMap<Timestamped<K>, Option<R>>` of a `Mutable`
  becomes a strictly sorted association list under the
  (key ascending, timestamp descending) order;
* `Mutable::append / get / scan / check_conflict` become pure functions
  over that list, with the WAL-write outcome passed as an explicit
  boolean;
* `Compactor::minor_compaction`, `major_compaction`,
  `this_level_scopes`, `next_level_scopes`, `build_tables` become pure
  functions over a `Version` value (per-level scope vectors plus a map
  from file ids to table contents).

Parts of the repository that are only called from the embedded files
(e.g. `Version::scope_search`, `DbOption::is_threshold_exceeded_major`,
`MergeStream`, `LevelStream`, `SsTableScan`, `VersionSet::apply_edits`)
are modelled from the specification; each such definition carries a
doc comment starting with `Modelled from the spec:`.
-/

namespace Tonbo

/-- Timestamps are u32 sequence numbers (src/timestamp): modelled as `Nat`. -/
abbrev Timestamp := Nat

/-- `EPOCH = 0` is reserved for "earliest" (spec §3). -/
def EPOCH : Timestamp := 0

/-- `u32::MAX`, the largest representable timestamp. -/
def U32MAX : Timestamp := 4294967295

/-- `Timestamped<K>` (src/timestamp/timestamped.rs): a key paired with a
timestamp; the primary index element of the mutable table. -/
structure TsKey (K : Type) where
  key : K
  ts : Timestamp
deriving DecidableEq, Repr

variable {K V : Type}

/-- The `Ord` instance on `Timestamped<K>`: key ascending, timestamp
descending (newest first). -/
def TsKey.lt [LinearOrder K] (a b : TsKey K) : Prop :=
  a.key < b.key ∨ (a.key = b.key ∧ b.ts < a.ts)

instance [LinearOrder K] (a b : TsKey K) : Decidable (TsKey.lt a b) := by
  unfold TsKey.lt; infer_instance

theorem TsKey.ltTrans [LinearOrder K] {a b c : TsKey K}
    (hab : TsKey.lt a b) (hbc : TsKey.lt b c) : TsKey.lt a c := by
  rcases hab with h | ⟨he, ht⟩ <;> rcases hbc with h' | ⟨he', ht'⟩
  · exact Or.inl (h.trans h')
  · exact Or.inl (he' ▸ h)
  · exact Or.inl (he ▸ h')
  · exact Or.inr ⟨he.trans he', ht'.trans ht⟩

theorem TsKey.ltIrrefl [LinearOrder K] (a : TsKey K) : ¬ TsKey.lt a a := by
  rintro (h | ⟨_, h⟩)
  · exact absurd h (by simp)
  · exact absurd h (by simp)

/-- Trichotomy of the `Timestamped` order. -/
theorem TsKey.eqOfNotLt [LinearOrder K] {a b : TsKey K}
    (h₁ : ¬ TsKey.lt a b) (h₂ : ¬ TsKey.lt b a) : a = b := by
  unfold TsKey.lt at h₁ h₂
  push_neg at h₁ h₂
  obtain ⟨h₁k, h₁t⟩ := h₁
  obtain ⟨h₂k, h₂t⟩ := h₂
  have hk : a.key = b.key := le_antisymm h₂k h₁k
  have ht : a.ts = b.ts := le_antisymm (h₁t hk) (h₂t hk.symm)
  cases a; cases b
  simp_all

/-- Rust `Bound` (std::ops::Bound), as used by skip-map range queries. -/
inductive RBound (α : Type) where
  | unbounded : RBound α
  | included (a : α) : RBound α
  | excluded (a : α) : RBound α
deriving DecidableEq, Repr

/-- An element satisfies the lower bound of a range. -/
def lowOk [LinearOrder K] : RBound (TsKey K) → TsKey K → Prop
  | .unbounded, _ => True
  | .included a, e => ¬ TsKey.lt e a
  | .excluded a, e => TsKey.lt a e

/-- An element satisfies the upper bound of a range. -/
def highOk [LinearOrder K] : RBound (TsKey K) → TsKey K → Prop
  | .unbounded, _ => True
  | .included b, e => ¬ TsKey.lt b e
  | .excluded b, e => TsKey.lt e b

instance [LinearOrder K] (b : RBound (TsKey K)) (e : TsKey K) :
    Decidable (lowOk b e) := by
  unfold lowOk; cases b <;> infer_instance

instance [LinearOrder K] (b : RBound (TsKey K)) (e : TsKey K) :
    Decidable (highOk b e) := by
  unfold highOk; cases b <;> infer_instance

/-- The contents of a `Mutable`'s skip map: an association list from
timestamped keys to optional records (`None` = tombstone), kept strictly
sorted under the (key asc, ts desc) order. -/
abbrev MutMap (K V : Type) := List (TsKey K × Option V)

/-- The sortedness invariant of the skip map. -/
def MapSorted [LinearOrder K] (l : MutMap K V) : Prop :=
  l.Pairwise (fun a b => TsKey.lt a.1 b.1)

/-- `SkipMap::insert`: ordered insertion; an entry with an equal
(key, ts) pair is replaced. -/
def mapInsert [LinearOrder K] (e : TsKey K) (v : Option V) :
    MutMap K V → MutMap K V
  | [] => [(e, v)]
  | (k, w) :: rest =>
    if TsKey.lt e k then (e, v) :: (k, w) :: rest
    else if e = k then (e, v) :: rest
    else (k, w) :: mapInsert e v rest

/-- `SkipMap::range(lb, ub)`: the entries between the bounds, in map
order (the map is sorted, so a filter of the sorted list). -/
def mapRange [LinearOrder K] (lb ub : RBound (TsKey K)) (l : MutMap K V) :
    MutMap K V :=
  l.filter (fun p => decide (lowOk lb p.1 ∧ highOk ub p.1))

theorem mem_mapInsert [LinearOrder K] {e : TsKey K} {v : Option V}
    {l : MutMap K V} {x : TsKey K × Option V} (hx : x ∈ mapInsert e v l) :
    x = (e, v) ∨ x ∈ l := by
  induction l with
  | nil => simpa [mapInsert] using hx
  | cons hd t ih =>
    obtain ⟨k, w⟩ := hd
    by_cases h1 : TsKey.lt e k
    · simp only [mapInsert, if_pos h1, List.mem_cons] at hx
      simp only [List.mem_cons]
      tauto
    · by_cases h2 : e = k
      · simp only [mapInsert, if_neg h1, if_pos h2, List.mem_cons] at hx
        simp only [List.mem_cons]
        tauto
      · simp only [mapInsert, if_neg h1, if_neg h2, List.mem_cons] at hx
        simp only [List.mem_cons]
        rcases hx with h | h
        · tauto
        · rcases ih h with h' | h' <;> tauto

/-- Ordered insertion preserves the sortedness invariant. -/
theorem mapSorted_mapInsert [LinearOrder K] {l : MutMap K V}
    (hs : MapSorted l) (e : TsKey K) (v : Option V) :
    MapSorted (mapInsert e v l) := by
  induction l with
  | nil => simp [mapInsert, MapSorted]
  | cons hd t ih =>
    obtain ⟨k, w⟩ := hd
    rw [MapSorted, List.pairwise_cons] at hs
    obtain ⟨hk, ht⟩ := hs
    by_cases h1 : TsKey.lt e k
    · rw [MapSorted, mapInsert, if_pos h1]
      refine List.Pairwise.cons ?_ (List.Pairwise.cons hk ht)
      intro x hx
      simp only [List.mem_cons] at hx
      rcases hx with rfl | hx
      · exact h1
      · exact TsKey.ltTrans h1 (hk _ hx)
    · by_cases h2 : e = k
      · rw [MapSorted, mapInsert, if_neg h1, if_pos h2]
        exact List.Pairwise.cons (by simpa [h2] using hk) ht
      · rw [MapSorted, mapInsert, if_neg h1, if_neg h2]
        have hke : TsKey.lt k e := by
          by_contra hne
          exact h2 (TsKey.eqOfNotLt h1 hne)
        refine List.Pairwise.cons ?_ (ih ht)
        intro x hx
        rcases mem_mapInsert hx with h' | h'
        · rw [h']
          exact hke
        · exact hk _ h'

/-- `LogType` (src/wal/log.rs): the WAL chunking kind. -/
inductive LogType where
  | full | first | middle | last
deriving DecidableEq, Repr

/-- The error surfaced by `Mutable::append` when the WAL write fails
(`DbError::WalWrite`). -/
inductive DbWriteError where
  | walWrite
deriving DecidableEq, Repr

/-- `Mutable::append` (src/inmem/mutable.rs:111-134).

If a log type is given and the WAL is enabled, the WAL entry is
written first; a WAL failure surfaces as `DbError::WalWrite` and the
skip map is left untouched.  Otherwise the trigger is consulted and
the entry inserted.  The outcome of the WAL write is an effect of the
environment and is passed in as `walOk`; `trigger` abstracts
`Trigger::check_if_exceed`. -/
def Mutable.append [LinearOrder K] (useWal : Bool) (logTy : Option LogType)
    (walOk : Bool) (trigger : Option V → Bool) (data : MutMap K V)
    (key : K) (ts : Timestamp) (value : Option V) :
    Except DbWriteError Bool × MutMap K V :=
  if logTy.isSome && useWal && !walOk then
    (.error .walWrite, data)
  else
    (.ok (trigger value), mapInsert ⟨key, ts⟩ value data)

/-- `Mutable::get` (src/inmem/mutable.rs:136-147): first element of the
range `[(key, ts) ..= (key, EPOCH)]` (ts is descending, so the newest
entry of `key` with timestamp ≤ `ts`). -/
def Mutable.get [LinearOrder K] (data : MutMap K V) (key : K)
    (ts : Timestamp) : Option (TsKey K × Option V) :=
  (mapRange (.included ⟨key, ts⟩) (.included ⟨key, EPOCH⟩) data).head?

/-- `Mutable::scan` (src/inmem/mutable.rs:149-169): translate the key
bounds into timestamped bounds and range over the skip map.  An
inclusive low bound becomes `(key, ts)`, an exclusive low bound
`(key, EPOCH)`; an inclusive high bound becomes `(key, EPOCH)`, an
exclusive high bound `(key, ts)`. -/
def scanLowerBound (low : RBound K) (ts : Timestamp) : RBound (TsKey K) :=
  match low with
  | .included key => .included ⟨key, ts⟩
  | .excluded key => .excluded ⟨key, EPOCH⟩
  | .unbounded => .unbounded

def scanUpperBound (high : RBound K) (ts : Timestamp) : RBound (TsKey K) :=
  match high with
  | .included key => .included ⟨key, EPOCH⟩
  | .excluded key => .excluded ⟨key, ts⟩
  | .unbounded => .unbounded

def Mutable.scan [LinearOrder K] (data : MutMap K V)
    (low high : RBound K) (ts : Timestamp) : MutMap K V :=
  mapRange (scanLowerBound low ts) (scanUpperBound high ts) data

/-- `Mutable::check_conflict` (src/inmem/mutable.rs:175-183): true iff
the range `((key, u32::MAX), (key, ts))` (both bounds excluded) is
non-empty. -/
def Mutable.checkConflict [LinearOrder K] (data : MutMap K V) (key : K)
    (ts : Timestamp) : Bool :=
  (mapRange (.excluded ⟨key, U32MAX⟩) (.excluded ⟨key, ts⟩) data).head?.isSome

/-- One write operation against a `Mutable` table
(`Mutable::insert` / `Mutable::remove`, both delegating to `append`
with `Some(log_ty)`). -/
inductive MutOp (K V : Type) where
  | insert (key : K) (ts : Timestamp) (value : V)
  | remove (key : K) (ts : Timestamp)

/-- Apply one successful write (`append` with the WAL write
succeeding) to the map. -/
def applyOp [LinearOrder K] (data : MutMap K V) : MutOp K V → MutMap K V
  | .insert k ts v =>
    (Mutable.append true (some .full) true (fun _ => false) data k ts (some v)).2
  | .remove k ts =>
    (Mutable.append true (some .full) true (fun _ => false) data k ts none).2

/-- The map reached from an empty `Mutable` by a sequence of writes. -/
def applyOps [LinearOrder K] (ops : List (MutOp K V)) : MutMap K V :=
  ops.foldl applyOp []

theorem applyOps_sorted [LinearOrder K] (ops : List (MutOp K V)) :
    MapSorted (applyOps ops) := by
  suffices h : ∀ (l : MutMap K V), MapSorted l → MapSorted (ops.foldl applyOp l) by
    exact h [] (by simp [MapSorted])
  induction ops with
  | nil => intro l hl; simpa using hl
  | cons op rest ih =>
    intro l hl
    simp only [List.foldl_cons]
    refine ih _ ?_
    cases op <;>
      simpa [applyOp, Mutable.append] using mapSorted_mapInsert hl _ _

/-- The bounds used by `Mutable::get` select exactly the entries of
`key` with timestamp at most `ts`. -/
theorem getBound_iff [LinearOrder K] (k : K) (t : Timestamp) (e : TsKey K) :
    (lowOk (.included ⟨k, t⟩) e ∧ highOk (.included ⟨k, EPOCH⟩) e) ↔
      (e.key = k ∧ e.ts ≤ t) := by
  simp only [lowOk, highOk, TsKey.lt, EPOCH]
  constructor
  · rintro ⟨h1, h2⟩
    push_neg at h1 h2
    have hk : e.key = k := le_antisymm h2.1 h1.1
    exact ⟨hk, h1.2 hk⟩
  · rintro ⟨hk, ht⟩
    subst hk
    constructor
    · push_neg
      exact ⟨le_refl _, fun _ => ht⟩
    · push_neg
      exact ⟨le_refl _, fun _ => Nat.zero_le _⟩

/-- `Mutable::get` on a sorted map returns the entry of `key` with the
largest timestamp `≤ ts`, or `none` when no such entry exists. -/
theorem mutGet_spec [LinearOrder K] {l : MutMap K V} (hs : MapSorted l)
    (k : K) (t : Timestamp) :
    match Mutable.get l k t with
    | some e => e ∈ l ∧ e.1.key = k ∧ e.1.ts ≤ t ∧
        ∀ f ∈ l, f.1.key = k → f.1.ts ≤ t → f.1.ts ≤ e.1.ts
    | none => ∀ f ∈ l, ¬ (f.1.key = k ∧ f.1.ts ≤ t) := by
  unfold Mutable.get mapRange
  set q : TsKey K × Option V → Bool :=
    fun p => decide (lowOk (.included ⟨k, t⟩) p.1 ∧
      highOk (.included ⟨k, EPOCH⟩) p.1) with hq
  have hqIff : ∀ p : TsKey K × Option V,
      q p = true ↔ (p.1.key = k ∧ p.1.ts ≤ t) := by
    intro p
    rw [hq]
    simp only [decide_eq_true_eq]
    exact getBound_iff k t p.1
  cases hfl : l.filter q with
  | nil =>
    simp only [List.head?_nil]
    intro f hf hcond
    have : f ∈ l.filter q := List.mem_filter.mpr ⟨hf, (hqIff f).mpr hcond⟩
    simp [hfl] at this
  | cons e rest =>
    simp only [List.head?_cons]
    have he : e ∈ l.filter q := by rw [hfl]; exact List.mem_cons_self _ _
    obtain ⟨hel, heq⟩ := List.mem_filter.mp he
    obtain ⟨hek, het⟩ := (hqIff e).mp heq
    refine ⟨hel, hek, het, ?_⟩
    intro f hf hfk hft
    have hfmem : f ∈ l.filter q := List.mem_filter.mpr ⟨hf, (hqIff f).mpr ⟨hfk, hft⟩⟩
    have hpw : (l.filter q).Pairwise (fun a b => TsKey.lt a.1 b.1) :=
      List.Pairwise.filter _ hs
    rw [hfl, List.pairwise_cons] at hpw
    rw [hfl] at hfmem
    rcases List.mem_cons.mp hfmem with rfl | hfr
    · exact le_refl _
    · have hlt := hpw.1 f hfr
      rcases hlt with h | ⟨_, h⟩
      · rw [hek, hfk] at h
        exact absurd h (lt_irrefl _)
      · exact le_of_lt h

/-- C1: for every sequence of insert/remove operations on a `Mutable`
table, `get(k, t)` returns the entry (value or tombstone) with the
largest timestamp `≤ t` for key `k`, or absent when no entry for `k`
has timestamp `≤ t`.  (`Mutable.get` is, definitionally, the first
element of the range lookup `[(key, read_ts) ..= (key, EPOCH)]` under
the (key asc, ts desc) order.) -/
theorem mutable_get_returns_newest_le_read_ts [LinearOrder K]
    (ops : List (MutOp K V)) (k : K) (t : Timestamp) :
    match Mutable.get (applyOps ops) k t with
    | some e => e ∈ applyOps ops ∧ e.1.key = k ∧ e.1.ts ≤ t ∧
        ∀ f ∈ applyOps ops, f.1.key = k → f.1.ts ≤ t → f.1.ts ≤ e.1.ts
    | none => ∀ f ∈ applyOps ops, ¬ (f.1.key = k ∧ f.1.ts ≤ t) :=
  mutGet_spec (applyOps_sorted ops) k t

/-- The inserted entry is a member of the map after insertion. -/
theorem self_mem_mapInsert [LinearOrder K] (e : TsKey K) (v : Option V)
    (l : MutMap K V) : (e, v) ∈ mapInsert e v l := by
  induction l with
  | nil => simp [mapInsert]
  | cons hd t ih =>
    obtain ⟨k, w⟩ := hd
    by_cases h1 : TsKey.lt e k
    · simp [mapInsert, if_pos h1]
    · by_cases h2 : e = k
      · simp [mapInsert, if_neg h1, if_pos h2]
      · simp only [mapInsert, if_neg h1, if_neg h2, List.mem_cons]
        exact Or.inr ih

/-- C4: a failing WAL write makes `Mutable::append` return
`DbError::WalWrite` and leaves the ordered map unchanged; when the
WAL write succeeds the entry is inserted and visible. -/
theorem append_wal_failure_leaves_map_unchanged [LinearOrder K]
    (logTy : LogType) (trigger : Option V → Bool) (data : MutMap K V)
    (k : K) (ts : Timestamp) (v : Option V) :
    Mutable.append true (some logTy) false trigger data k ts v
        = (.error .walWrite, data)
    ∧ Mutable.append true (some logTy) true trigger data k ts v
        = (.ok (trigger v), mapInsert ⟨k, ts⟩ v data)
    ∧ (⟨⟨k, ts⟩, v⟩ : TsKey K × Option V)
        ∈ (Mutable.append true (some logTy) true trigger data k ts v).2 := by
  refine ⟨by simp [Mutable.append], by simp [Mutable.append], ?_⟩
  simp only [Mutable.append]
  simpa using self_mem_mapInsert (⟨k, ts⟩ : TsKey K) v data

/-- What the translated lower bound of `Mutable::scan` actually admits:
an inclusive low bound admits later keys and, for the bound key itself,
only timestamps `≤ read_ts`; an exclusive low bound admits strictly
later keys and nothing of the bound key. -/
def scanLowSat [LinearOrder K] (low : RBound K) (t : Timestamp)
    (e : TsKey K) : Prop :=
  match low with
  | .unbounded => True
  | .included a => a < e.key ∨ (e.key = a ∧ e.ts ≤ t)
  | .excluded a => a < e.key

/-- What the translated upper bound of `Mutable::scan` actually admits:
an inclusive high bound admits all timestamps of the bound key; an
exclusive high bound admits earlier keys plus — of the bound key
itself — exactly the entries with timestamp strictly above `read_ts`. -/
def scanHighSat [LinearOrder K] (high : RBound K) (t : Timestamp)
    (e : TsKey K) : Prop :=
  match high with
  | .unbounded => True
  | .included b => e.key ≤ b
  | .excluded b => e.key < b ∨ (e.key = b ∧ t < e.ts)

theorem scanLow_iff [LinearOrder K] (low : RBound K) (t : Timestamp)
    (e : TsKey K) :
    lowOk (scanLowerBound low t) e ↔ scanLowSat low t e := by
  cases low with
  | unbounded => simp [scanLowerBound, lowOk, scanLowSat]
  | included a =>
    simp only [scanLowerBound, lowOk, scanLowSat, TsKey.lt]
    constructor
    · intro h
      push_neg at h
      rcases lt_or_eq_of_le h.1 with hlt | heq
      · exact Or.inl hlt
      · exact Or.inr ⟨heq.symm, h.2 heq.symm⟩
    · rintro (h | ⟨hk, ht⟩)
      · push_neg
        exact ⟨le_of_lt h, fun hk => absurd (hk ▸ h) (lt_irrefl _)⟩
      · push_neg
        exact ⟨le_of_eq hk.symm, fun _ => ht⟩
  | excluded a =>
    simp only [scanLowerBound, lowOk, scanLowSat, TsKey.lt, EPOCH]
    constructor
    · rintro (h | ⟨_, h⟩)
      · exact h
      · exact absurd h (Nat.not_lt_zero _)
    · exact fun h => Or.inl h

theorem scanHigh_iff [LinearOrder K] (high : RBound K) (t : Timestamp)
    (e : TsKey K) :
    highOk (scanUpperBound high t) e ↔ scanHighSat high t e := by
  cases high with
  | unbounded => simp [scanUpperBound, highOk, scanHighSat]
  | included b =>
    simp only [scanUpperBound, highOk, scanHighSat, TsKey.lt, EPOCH]
    constructor
    · intro h
      push_neg at h
      exact h.1
    · intro h
      push_neg
      exact ⟨h, fun _ => Nat.zero_le _⟩
  | excluded b =>
    simp only [scanUpperBound, highOk, scanHighSat, TsKey.lt]

/-- C6 (amended): an entry is produced by `Mutable::scan` iff it is in
the map and satisfies the translated bounds, which at the boundary
keys depend on `read_ts`: the inclusive-low key contributes only its
entries with ts ≤ read_ts, the exclusive-low key contributes nothing,
the inclusive-high key contributes all its entries, and the
exclusive-high key contributes exactly its entries with
ts > read_ts. -/
theorem mutable_scan_bound_characterization [LinearOrder K]
    (data : MutMap K V) (low high : RBound K) (t : Timestamp)
    (x : TsKey K × Option V) :
    x ∈ Mutable.scan data low high t ↔
      x ∈ data ∧ scanLowSat low t x.1 ∧ scanHighSat high t x.1 := by
  unfold Mutable.scan mapRange
  rw [List.mem_filter]
  simp only [decide_eq_true_eq]
  rw [scanLow_iff low t x.1]
  rw [scanHigh_iff high t x.1]

/-- C6 (counterexample): with the map holding the single entry
`(key 1, ts 5)`, a scan over the key range `(unbounded, excluded 1)` at
`read_ts = 3` emits that entry even though key `1` is outside the
requested key range — the translated exclusive high bound `(1, 3)`
admits `(1, 5)` because ts sorts descending. -/
theorem mutable_scan_leaks_outside_range :
    Mutable.scan ([(⟨1, 5⟩, some 0)] : MutMap Nat Nat)
        .unbounded (.excluded 1) 3 = [(⟨1, 5⟩, some 0)]
    ∧ ¬ (1 : ℕ) < 1 := by
  constructor
  · decide
  · decide

/-- The bounds used by `Mutable::check_conflict` select exactly the
entries of `key` with `ts < entry.ts < u32::MAX`. -/
theorem conflictBound_iff [LinearOrder K] (k : K) (t : Timestamp)
    (e : TsKey K) :
    (lowOk (.excluded ⟨k, U32MAX⟩) e ∧ highOk (.excluded ⟨k, t⟩) e) ↔
      (e.key = k ∧ t < e.ts ∧ e.ts < U32MAX) := by
  simp only [lowOk, highOk, TsKey.lt]
  constructor
  · rintro ⟨h1 | ⟨hk1, ht1⟩, h2 | ⟨hk2, ht2⟩⟩
    · exact absurd (h1.trans h2) (lt_irrefl _)
    · exact absurd (hk2 ▸ h1) (lt_irrefl _)
    · exact absurd (hk1 ▸ h2) (lt_irrefl _)
    · exact ⟨hk2, ht2, ht1⟩
  · rintro ⟨hk, ht, hmax⟩
    exact ⟨Or.inr ⟨hk.symm, hmax⟩, Or.inr ⟨hk, ht⟩⟩

/-- C7 (amended): `check_conflict(k, ts)` returns true iff some entry
exists for key `k` with timestamp strictly between `ts` and
`u32::MAX`; an entry whose timestamp equals `u32::MAX` is not
detected, because the lower range bound `(key, u32::MAX)` is
exclusive. -/
theorem head_filter_isSome_iff {α : Type} (p : α → Bool) (l : List α) :
    (l.filter p).head?.isSome = true ↔ ∃ x ∈ l, p x = true := by
  constructor
  · intro h
    cases hfl : l.filter p with
    | nil => rw [hfl] at h; simp at h
    | cons e rest =>
      have he : e ∈ l.filter p := by rw [hfl]; exact List.mem_cons_self _ _
      obtain ⟨hel, hep⟩ := List.mem_filter.mp he
      exact ⟨e, hel, hep⟩
  · rintro ⟨x, hx, hpx⟩
    have hm : x ∈ l.filter p := List.mem_filter.mpr ⟨hx, hpx⟩
    cases hfl : l.filter p with
    | nil => rw [hfl] at hm; simp at hm
    | cons e rest => simp

theorem mutable_check_conflict_iff [LinearOrder K]
    (data : MutMap K V) (k : K) (t : Timestamp) :
    Mutable.checkConflict data k t = true ↔
      ∃ e ∈ data, e.1.key = k ∧ t < e.1.ts ∧ e.1.ts < U32MAX := by
  unfold Mutable.checkConflict mapRange
  rw [head_filter_isSome_iff]
  constructor
  · rintro ⟨e, he, hc⟩
    rw [decide_eq_true_eq] at hc
    exact ⟨e, he, (conflictBound_iff k t e.1).mp hc⟩
  · rintro ⟨e, he, hc⟩
    refine ⟨e, he, ?_⟩
    rw [decide_eq_true_eq]
    exact (conflictBound_iff k t e.1).mpr hc

/-- C7 (counterexample): an entry whose timestamp is exactly
`u32::MAX` is not reported as a conflict, although its timestamp is
strictly greater than the probed one: the range's lower bound
`(key, u32::MAX)` is exclusive. -/
theorem check_conflict_misses_u32_max :
    Mutable.checkConflict ([(⟨1, U32MAX⟩, some 0)] : MutMap Nat Nat) 1 0
        = false
    ∧ (0 : Timestamp) < U32MAX := by
  constructor
  · decide
  · decide

/-- File ids (`FileId = Ulid`): modelled as `Nat`. -/
abbrev FileId := Nat

/-- `Scope` (src/scope.rs): the closed key interval an SSTable covers,
its file id, and (for level-0 tables born from a flush) the WAL ids it
subsumes. -/
structure Scope (K : Type) where
  min : K
  max : K
  gen : FileId
  walIds : Option (List FileId)
deriving DecidableEq, Repr

/-- `Scope::contains`: closed-interval membership. -/
def Scope.contains [LinearOrder K] (s : Scope K) (key : K) : Prop :=
  s.min ≤ key ∧ key ≤ s.max

instance [LinearOrder K] (s : Scope K) (key : K) :
    Decidable (s.contains key) := by
  unfold Scope.contains; infer_instance

/-- `VersionEdit` (src/version/edit.rs):
`Add | Remove | LatestTimeStamp`. -/
inductive VersionEdit (K : Type) where
  | add (level : Nat) (scope : Scope K)
  | remove (level : Nat) (gen : FileId)
  | latestTimeStamp (ts : Timestamp)
deriving DecidableEq, Repr

/-- The `CompactionError` variants reachable in the embedded pure
fragment (src/compaction/mod.rs: `CompactionError::EmptyLevel`). -/
inductive CompactionError where
  | emptyLevel
deriving DecidableEq, Repr

/-- The running minimum of `Compactor::minor_compaction`'s batch loop:
replace when unset or when the batch minimum is strictly smaller
(`matches!(min.map(|min| min > batch_min), Some(true) | None)`). -/
def minorMin [LinearOrder K] (batches : List (Option FileId × Option (K × K))) :
    Option K :=
  batches.foldl
    (fun acc b =>
      match b.2 with
      | none => acc
      | some (bmin, _) =>
        match acc with
        | none => some bmin
        | some m => if bmin < m then some bmin else some m)
    none

/-- The running maximum of `Compactor::minor_compaction`'s batch loop. -/
def minorMax [LinearOrder K] (batches : List (Option FileId × Option (K × K))) :
    Option K :=
  batches.foldl
    (fun acc b =>
      match b.2 with
      | none => acc
      | some (_, bmax) =>
        match acc with
        | none => some bmax
        | some m => if m < bmax then some bmax else some m)
    none

/-- The `wal_ids` accumulated by `Compactor::minor_compaction`: any
`recover_wal_ids` first, then each batch's WAL id in arrival order. -/
def minorWalIds (recoverWalIds : Option (List FileId))
    (batches : List (Option FileId × Option (K × K))) : List FileId :=
  (match recoverWalIds with
    | some ids => ids
    | none => []) ++ batches.filterMap (·.1)

/-- `Compactor::minor_compaction` (src/compaction/mod.rs:148-207),
restricted to its pure outcome.  A batch is abstracted to its WAL id
and its `Immutable::scope()`; the single Rust loop is split into its
three independent accumulations (`minorMin`, `minorMax`,
`minorWalIds`).  The second component of the result is the list of
SSTable files created: the parquet writer is opened (and the file
written) before the `min.ok_or(EmptyLevel)?`, so the file exists even
in the error case. -/
def minorCompaction [LinearOrder K] (recoverWalIds : Option (List FileId))
    (batches : List (Option FileId × Option (K × K))) (gen : FileId) :
    Except CompactionError (Option (Scope K)) × List FileId :=
  if batches.isEmpty then (.ok none, [])
  else
    match minorMin batches, minorMax batches with
    | some mn, some mx =>
      (.ok (some ⟨mn, mx, gen, some (minorWalIds recoverWalIds batches)⟩), [gen])
    | _, _ => (.error .emptyLevel, [gen])

/-- One step of the running-minimum accumulation. -/
def optMinStep [LinearOrder K] (acc : Option K) (m : K) : Option K :=
  match acc with
  | none => some m
  | some a => if m < a then some m else some a

/-- One step of the running-maximum accumulation. -/
def optMaxStep [LinearOrder K] (acc : Option K) (m : K) : Option K :=
  match acc with
  | none => some m
  | some a => if a < m then some m else some a

theorem minorMin_eq_fold [LinearOrder K]
    (batches : List (Option FileId × Option (K × K))) :
    minorMin batches =
      (batches.filterMap (fun b => b.2.map Prod.fst)).foldl optMinStep none := by
  unfold minorMin
  suffices h : ∀ acc : Option K,
      batches.foldl
        (fun acc b =>
          match b.2 with
          | none => acc
          | some (bmin, _) =>
            match acc with
            | none => some bmin
            | some m => if bmin < m then some bmin else some m)
        acc =
      (batches.filterMap (fun b => b.2.map Prod.fst)).foldl optMinStep acc from
    h none
  induction batches with
  | nil => intro acc; simp
  | cons b rest ih =>
    intro acc
    obtain ⟨bid, bscope⟩ := b
    cases bscope with
    | none => simpa using ih acc
    | some p =>
      obtain ⟨bmin, bmax⟩ := p
      simp only [List.foldl_cons, List.filterMap_cons, Option.map_some]
      cases acc <;> exact ih _

theorem minorMax_eq_fold [LinearOrder K]
    (batches : List (Option FileId × Option (K × K))) :
    minorMax batches =
      (batches.filterMap (fun b => b.2.map Prod.snd)).foldl optMaxStep none := by
  unfold minorMax
  suffices h : ∀ acc : Option K,
      batches.foldl
        (fun acc b =>
          match b.2 with
          | none => acc
          | some (_, bmax) =>
            match acc with
            | none => some bmax
            | some m => if m < bmax then some bmax else some m)
        acc =
      (batches.filterMap (fun b => b.2.map Prod.snd)).foldl optMaxStep acc from
    h none
  induction batches with
  | nil => intro acc; simp
  | cons b rest ih =>
    intro acc
    obtain ⟨bid, bscope⟩ := b
    cases bscope with
    | none => simpa using ih acc
    | some p =>
      obtain ⟨bmin, bmax⟩ := p
      simp only [List.foldl_cons, List.filterMap_cons, Option.map_some]
      cases acc <;> exact ih _

theorem optMinFold_some [LinearOrder K] :
    ∀ (l : List K) (a : K),
      ∃ r, l.foldl optMinStep (some a) = some r ∧ r ≤ a ∧
        (∀ m ∈ l, r ≤ m) ∧ (r = a ∨ r ∈ l) := by
  intro l
  induction l with
  | nil =>
    intro a
    exact ⟨a, by simp, le_refl _, by simp, Or.inl rfl⟩
  | cons m rest ih =>
    intro a
    obtain ⟨r, hr, hra, hrl, hmem⟩ := ih (if m < a then m else a)
    have hle_a : (if m < a then m else a) ≤ a := by
      split
      · exact le_of_lt ‹_›
      · exact le_refl _
    have hle_m : (if m < a then m else a) ≤ m := by
      split
      · exact le_refl _
      · exact not_lt.mp ‹_›
    refine ⟨r, ?_, hra.trans hle_a, ?_, ?_⟩
    · rw [List.foldl_cons]
      have : optMinStep (some a) m = some (if m < a then m else a) := by
        by_cases h : m < a <;> simp [optMinStep, h]
      rw [this]
      exact hr
    · intro x hx
      rcases List.mem_cons.mp hx with rfl | hx
      · exact hra.trans hle_m
      · exact hrl x hx
    · rcases hmem with rfl | hmem
      · split
        · exact Or.inr (List.mem_cons_self _ _)
        · exact Or.inl rfl
      · exact Or.inr (List.mem_cons_of_mem _ hmem)

theorem optMaxFold_some [LinearOrder K] :
    ∀ (l : List K) (a : K),
      ∃ r, l.foldl optMaxStep (some a) = some r ∧ a ≤ r ∧
        (∀ m ∈ l, m ≤ r) ∧ (r = a ∨ r ∈ l) := by
  intro l
  induction l with
  | nil =>
    intro a
    exact ⟨a, by simp, le_refl _, by simp, Or.inl rfl⟩
  | cons m rest ih =>
    intro a
    obtain ⟨r, hr, hra, hrl, hmem⟩ := ih (if a < m then m else a)
    have hge_a : a ≤ (if a < m then m else a) := by
      split
      · exact le_of_lt ‹_›
      · exact le_refl _
    have hge_m : m ≤ (if a < m then m else a) := by
      split
      · exact le_refl _
      · exact not_lt.mp ‹_›
    refine ⟨r, ?_, hge_a.trans hra, ?_, ?_⟩
    · rw [List.foldl_cons]
      have : optMaxStep (some a) m = some (if a < m then m else a) := by
        by_cases h : a < m <;> simp [optMaxStep, h]
      rw [this]
      exact hr
    · intro x hx
      rcases List.mem_cons.mp hx with rfl | hx
      · exact hge_m.trans hra
      · exact hrl x hx
    · rcases hmem with rfl | hmem
      · split
        · exact Or.inr (List.mem_cons_self _ _)
        · exact Or.inl rfl
      · exact Or.inr (List.mem_cons_of_mem _ hmem)

theorem optMinFold_none_spec [LinearOrder K] (l : List K) :
    match l.foldl optMinStep none with
    | some r => r ∈ l ∧ ∀ m ∈ l, r ≤ m
    | none => l = [] := by
  cases l with
  | nil => simp
  | cons m rest =>
    rw [List.foldl_cons]
    have hstep : optMinStep (none : Option K) m = some m := by simp [optMinStep]
    rw [hstep]
    obtain ⟨r, hr, hra, hrl, hmem⟩ := optMinFold_some rest m
    rw [hr]
    refine ⟨?_, ?_⟩
    · rcases hmem with rfl | hmem
      · exact List.mem_cons_self _ _
      · exact List.mem_cons_of_mem _ hmem
    · intro x hx
      rcases List.mem_cons.mp hx with rfl | hx
      · exact hra
      · exact hrl x hx

theorem optMaxFold_none_spec [LinearOrder K] (l : List K) :
    match l.foldl optMaxStep none with
    | some r => r ∈ l ∧ ∀ m ∈ l, m ≤ r
    | none => l = [] := by
  cases l with
  | nil => simp
  | cons m rest =>
    rw [List.foldl_cons]
    have hstep : optMaxStep (none : Option K) m = some m := by simp [optMaxStep]
    rw [hstep]
    obtain ⟨r, hr, hra, hrl, hmem⟩ := optMaxFold_some rest m
    rw [hr]
    refine ⟨?_, ?_⟩
    · rcases hmem with rfl | hmem
      · exact List.mem_cons_self _ _
      · exact List.mem_cons_of_mem _ hmem
    · intro x hx
      rcases List.mem_cons.mp hx with rfl | hx
      · exact hra
      · exact hrl x hx

/-- C2: minor compaction of a non-empty batch list (with at least one
non-empty batch) produces a level-0 `Scope` whose `min` (resp. `max`)
is the minimum (resp. maximum) over the non-empty input batches'
scope bounds, and whose `wal_ids` holds exactly the input batches' WAL
ids together with any `recover_wal_ids` from startup recovery. -/
theorem minor_compaction_scope_min_max_walids [LinearOrder K]
    (recoverWalIds : Option (List FileId))
    (batches : List (Option FileId × Option (K × K))) (gen : FileId)
    (hne : ∃ b ∈ batches, b.2.isSome = true) :
    ∃ mn mx,
      minorCompaction recoverWalIds batches gen =
        (.ok (some ⟨mn, mx, gen, some (minorWalIds recoverWalIds batches)⟩), [gen])
      ∧ mn ∈ batches.filterMap (fun b => b.2.map Prod.fst)
      ∧ (∀ m ∈ batches.filterMap (fun b => b.2.map Prod.fst), mn ≤ m)
      ∧ mx ∈ batches.filterMap (fun b => b.2.map Prod.snd)
      ∧ (∀ m ∈ batches.filterMap (fun b => b.2.map Prod.snd), m ≤ mx)
      ∧ ∀ x, x ∈ minorWalIds recoverWalIds batches ↔
          (∃ ids, recoverWalIds = some ids ∧ x ∈ ids) ∨
            ∃ b ∈ batches, b.1 = some x := by
  obtain ⟨b0, hb0, hb0s⟩ := hne
  have hbne : batches.isEmpty = false := by
    cases batches with
    | nil => simp at hb0
    | cons _ _ => rfl
  have hminsne : batches.filterMap (fun b => b.2.map Prod.fst) ≠ [] := by
    intro hcon
    obtain ⟨p, hp⟩ := Option.isSome_iff_exists.mp hb0s
    have : b0.2.map Prod.fst = some p.1 := by rw [hp]; rfl
    have hmem : p.1 ∈ batches.filterMap (fun b => b.2.map Prod.fst) :=
      List.mem_filterMap.mpr ⟨b0, hb0, this⟩
    rw [hcon] at hmem
    simp at hmem
  have hmin := optMinFold_none_spec (batches.filterMap (fun b => b.2.map Prod.fst))
  have hmax := optMaxFold_none_spec (batches.filterMap (fun b => b.2.map Prod.snd))
  rw [← minorMin_eq_fold] at hmin
  rw [← minorMax_eq_fold] at hmax
  cases hmn : minorMin batches with
  | none =>
    rw [hmn] at hmin
    exact absurd hmin hminsne
  | some mn =>
    cases hmx : minorMax batches with
    | none =>
      rw [hmx] at hmax
      exfalso
      obtain ⟨p, hp⟩ := Option.isSome_iff_exists.mp hb0s
      have : b0.2.map Prod.snd = some p.2 := by rw [hp]; rfl
      have hmem : p.2 ∈ batches.filterMap (fun b => b.2.map Prod.snd) :=
        List.mem_filterMap.mpr ⟨b0, hb0, this⟩
      rw [hmax] at hmem
      simp at hmem
    | some mx =>
      rw [hmn] at hmin
      rw [hmx] at hmax
      refine ⟨mn, mx, ?_, hmin.1, hmin.2, hmax.1, hmax.2, ?_⟩
      · unfold minorCompaction
        rw [hbne, hmn, hmx]
        rfl
      · intro x
        unfold minorWalIds
        rw [List.mem_append, List.mem_filterMap]
        constructor
        · rintro (hx | ⟨b, hb, hbx⟩)
          · cases recoverWalIds with
            | none => simp at hx
            | some ids => exact Or.inl ⟨ids, rfl, hx⟩
          · exact Or.inr ⟨b, hb, hbx⟩
        · rintro (⟨ids, hids, hx⟩ | ⟨b, hb, hbx⟩)
          · subst hids
            exact Or.inl hx
          · exact Or.inr ⟨b, hb, hbx⟩

/-- C2 (witness): the shape of spec scenario S1 — one batch covering
keys 3..6, another covering 1..4, with WAL ids 10 and 11 — yields the
scope [1, 6] with wal_ids [10, 11]. -/
theorem minor_compaction_scope_min_max_walids_witness :
    ∃ mn mx,
      minorCompaction (K := Nat) none
          [(some 10, some (3, 6)), (some 11, some (1, 4))] 99 =
        (.ok (some ⟨mn, mx, 99,
          some (minorWalIds none [(some 10, some (3, 6)), (some 11, some (1, 4))])⟩),
         [99])
      ∧ mn ∈ [(some 10, some ((3 : ℕ), (6 : ℕ))), (some 11, some (1, 4))].filterMap
          (fun b => b.2.map Prod.fst)
      ∧ (∀ m ∈ [(some 10, some ((3 : ℕ), (6 : ℕ))), (some 11, some (1, 4))].filterMap
          (fun b => b.2.map Prod.fst), mn ≤ m)
      ∧ mx ∈ [(some 10, some ((3 : ℕ), (6 : ℕ))), (some 11, some (1, 4))].filterMap
          (fun b => b.2.map Prod.snd)
      ∧ (∀ m ∈ [(some 10, some ((3 : ℕ), (6 : ℕ))), (some 11, some (1, 4))].filterMap
          (fun b => b.2.map Prod.snd), m ≤ mx)
      ∧ ∀ x, x ∈ minorWalIds none [(some 10, some ((3 : ℕ), (6 : ℕ))), (some 11, some (1, 4))] ↔
          (∃ ids, (none : Option (List FileId)) = some ids ∧ x ∈ ids) ∨
            ∃ b ∈ [(some 10, some ((3 : ℕ), (6 : ℕ))), (some 11, some (1, 4))], b.1 = some x :=
  minor_compaction_scope_min_max_walids none
    [(some 10, some (3, 6)), (some 11, some (1, 4))] 99
    ⟨(some 10, some (3, 6)), by simp, rfl⟩

/-- C10: minor compaction called with an empty slice of input batches
returns `None`, creates no SSTable file, and (since the caller only
builds version edits under `if let Some(scope)`) generates no version
edit, regardless of `recover_wal_ids`. -/
theorem minor_compaction_empty_batches_noop [LinearOrder K]
    (recoverWalIds : Option (List FileId)) (gen : FileId) :
    minorCompaction (K := K) recoverWalIds [] gen = (.ok none, []) := by
  unfold minorCompaction
  rfl

/-- The `DbOption` fields consumed by major compaction
(src/option.rs; the spec's §6 option list). -/
structure MajorOpts where
  majorThresholdWithSstSize : Nat
  levelSstMagnification : Nat
  majorLSelectionTableMaxNum : Nat
  majorDefaultOldestTableNum : Nat
  maxSstFileSize : Nat
deriving Repr

/-- A published `Version`, restricted to what compaction reads: the
ordered per-level vectors of `Scope`s (`level_slice`). -/
structure Version (K : Type) where
  levelSlice : List (List (Scope K))
deriving DecidableEq, Repr

/-- Modelled from the spec: `MAX_LEVEL` (src/version/mod.rs is not
under src/).  The spec fixes levels `0..=MAX_LEVEL-1` with the top two
levels ineligible as a compaction source; the concrete constant is 7. -/
def MAX_LEVEL : Nat := 7

/-- Modelled from the spec: `Version::scope_search(key, scopes)`
(src/version/mod.rs is not under src/) is "a lower-bound binary search
by `scope.max`" — the first index whose scope's max is `≥ key`
(`scopes.len()` if none), here as the equivalent linear search. -/
def scopeSearch [LinearOrder K] (key : K) (scopes : List (Scope K)) : Nat :=
  scopes.findIdx (fun s => decide (key ≤ s.max))

/-- Modelled from the spec: `DbOption::is_threshold_exceeded_major`
(src/option.rs is not under src/): the level's table count against
`major_threshold_with_sst_size * level_sst_magnification ^ L`.  The
spec's §4.6 words say "true iff |scopes@L| > threshold·mag^L", but the
repository's own `major_compaction` test (src/compaction/mod.rs,
`major_threshold_with_sst_size = 2` with exactly 2 level-0 tables)
only passes when the comparison is `≥`, so `≥` is used. -/
def isThresholdExceededMajor [LinearOrder K] (opts : MajorOpts)
    (version : Version K) (level : Nat) : Bool :=
  decide (opts.majorThresholdWithSstSize * opts.levelSstMagnification ^ level
    ≤ (version.levelSlice.getD level []).length)

/-- The selection loop of `Compactor::this_level_scopes`
(src/compaction/mod.rs:391-400): walk consecutive scopes from the
search start, keeping a scope while it contains `min` or `max` AND
the number already kept is `≤ major_l_selection_table_max_num`;
stop at the first scope failing either test.  `cnt` is the number of
scopes already kept. -/
def selectLoop [LinearOrder K] (maxNum : Nat) (mn mx : K) :
    Nat → List (Scope K) → List (Scope K)
  | _, [] => []
  | cnt, s :: rest =>
    if (s.contains mn ∨ s.contains mx) ∧ cnt ≤ maxNum then
      s :: selectLoop maxNum mn mx (cnt + 1) rest
    else []

/-- The fallback loop of `Compactor::this_level_scopes`
(src/compaction/mod.rs:408-414): take the oldest scopes, breaking
once the number already kept exceeds
`major_l_selection_table_max_num`. -/
def fbLoop (maxNum : Nat) : Nat → List (Scope K) → List (Scope K)
  | _, [] => []
  | cnt, s :: rest =>
    if maxNum < cnt then []
    else s :: fbLoop maxNum (cnt + 1) rest

/-- `Compactor::this_level_scopes` (src/compaction/mod.rs:376-416):
returns the selected scopes of level `L` together with the
`(start, end)` index pair.  The main path starts at
`scope_search(min)`; if it selects nothing, the fallback takes the
oldest `min(major_default_oldest_table_num, len)` scopes (with the
same count cap) and reports `start = 0`,
`end = min(major_default_oldest_table_num, len) - 1`. -/
def thisLevelScopes [LinearOrder K] (opts : MajorOpts) (version : Version K)
    (mn mx : K) (level : Nat) : List (Scope K) × Nat × Nat :=
  if (selectLoop opts.majorLSelectionTableMaxNum mn mx 0
        ((version.levelSlice.getD level []).drop
          (scopeSearch mn (version.levelSlice.getD level [])))).isEmpty then
    (fbLoop opts.majorLSelectionTableMaxNum 0
        ((version.levelSlice.getD level []).take
          (min opts.majorDefaultOldestTableNum
            (version.levelSlice.getD level []).length)),
      0,
      min opts.majorDefaultOldestTableNum
        (version.levelSlice.getD level []).length - 1)
  else
    (selectLoop opts.majorLSelectionTableMaxNum mn mx 0
        ((version.levelSlice.getD level []).drop
          (scopeSearch mn (version.levelSlice.getD level []))),
      scopeSearch mn (version.levelSlice.getD level []),
      scopeSearch mn (version.levelSlice.getD level []) +
        (selectLoop opts.majorLSelectionTableMaxNum mn mx 0
          ((version.levelSlice.getD level []).drop
            (scopeSearch mn (version.levelSlice.getD level [])))).length - 1)

/-- `Compactor::next_level_scopes` (src/compaction/mod.rs:329-374):
when level `L+1` is non-empty, refine `min`/`max` to the actual
min/max over the selected `L` scopes, then keep — inside the index
window `[scope_search(min) .. min(scope_search(max)+1, len)]` — the
scopes that contain the refined `min` or `max`.  Returns the
selection, the two search indices, and the refined window. -/
def nextLevelScopes [LinearOrder K] (version : Version K) (mn mx : K)
    (level : Nat) (meetL : List (Scope K)) :
    Except CompactionError (List (Scope K) × Nat × Nat × K × K) :=
  let sliceLL := version.levelSlice.getD (level + 1) []
  if sliceLL.isEmpty then .ok ([], 0, 0, mn, mx)
  else
    match (meetL.map Scope.min).foldl optMinStep none,
        (meetL.map Scope.max).foldl optMaxStep none with
    | some mn2, some mx2 =>
      let startLL := scopeSearch mn2 sliceLL
      let endLL := scopeSearch mx2 sliceLL
      let window := (sliceLL.drop startLL).take (min (endLL + 1) sliceLL.length - startLL)
      .ok (window.filter (fun s => decide (s.contains mn2 ∨ s.contains mx2)),
        startLL, endLL, mn2, mx2)
    | _, _ => .error .emptyLevel

/-- Modelled from the spec: ordered insertion for the
`MergeStream` model (stream/merge.rs is not under src/).  §4.4: the
merge is sorted under (key asc, ts desc); on an equal `(key, ts)` the
source earliest in the vector wins — an equal later entry is
dropped. -/
def insSorted [LinearOrder K] (e : TsKey K) : List (TsKey K) → List (TsKey K)
  | [] => [e]
  | x :: xs =>
    if TsKey.lt e x then e :: x :: xs
    else if e = x then x :: xs
    else x :: insSorted e xs

/-- Modelled from the spec: `MergeStream` (stream/merge.rs is not
under src/): a k-way merge of the sources under the
(key asc, ts desc) order, earliest source winning ties.  Only the
timestamped keys are modelled — the emitted `Add` scopes depend on
nothing else. -/
def mergeEntries [LinearOrder K] (sources : List (List (TsKey K))) :
    List (TsKey K) :=
  sources.foldl (fun acc src => src.foldl (fun acc e => insSorted e acc) acc) []

/-- Modelled from the spec: `LevelStream` (stream/level.rs is not
under src/): virtualizes level `L ≥ 1` by walking its scopes in order
between `start_idx..=end_idx` and scanning each SSTable with the given
key range (read_ts is `u32::MAX` during compaction, so no timestamp is
filtered). -/
def levelStreamEntries [LinearOrder K] (version : Version K)
    (contents : FileId → List (TsKey K)) (level startIdx endIdx : Nat)
    (lower upper : K) : List (TsKey K) :=
  ((((version.levelSlice.getD level []).drop startIdx).take
      (endIdx + 1 - startIdx)).map
    (fun s => (contents s.gen).filter
      (fun e => decide (lower ≤ e.key ∧ e.key ≤ upper)))).flatten

/-- The streaming loop of `Compactor::build_tables`
(src/compaction/mod.rs:418-472) together with `build_table`
(:489-527): push merged entries into the column builder, tracking
`min` (first key since the last roll) and `max` (last key); once
`written_size ≥ max_sst_file_size`, emit `Add{level, scope}` and
reset; after the loop, emit a final `Add` when `written_size > 0`.
`sizeOf` abstracts the arrow builder's per-entry `written_size`
growth; fresh file ids are `g, g+1, …`. -/
def buildTablesLoop [LinearOrder K] (opts : MajorOpts)
    (sizeOf : TsKey K → Nat) (level : Nat) :
    List (TsKey K) → Option K → Option K → Nat → FileId →
    Except CompactionError (List (VersionEdit K))
  | [], mn, mx, size, g =>
    if 0 < size then
      match mn, mx with
      | some a, some b => .ok [.add level ⟨a, b, g, none⟩]
      | _, _ => .error .emptyLevel
    else .ok []
  | e :: rest, mn, _mx, size, g =>
    let mn' := match mn with
      | none => some e.key
      | some a => some a
    let size' := size + sizeOf e
    if opts.maxSstFileSize ≤ size' then
      match mn', some e.key with
      | some a, some b => do
        let tailEdits ← buildTablesLoop opts sizeOf level rest none none 0 (g + 1)
        .ok (.add level ⟨a, b, g, none⟩ :: tailEdits)
      | _, _ => .error .emptyLevel
    else
      buildTablesLoop opts sizeOf level rest mn' (some e.key) size' g

/-- `Compactor::build_tables`, entered with a fresh builder. -/
def buildTables [LinearOrder K] (opts : MajorOpts) (sizeOf : TsKey K → Nat)
    (level : Nat) (merged : List (TsKey K)) (g : FileId) :
    Except CompactionError (List (VersionEdit K)) :=
  buildTablesLoop opts sizeOf level merged none none 0 g

/-- `Compactor::major_compaction` (src/compaction/mod.rs:210-327):
`while level < MAX_LEVEL - 2 && is_threshold_exceeded_major(level)`:
select this level's scopes and the next level's overlapping scopes,
merge — for `L = 0` each selected table is its own source, for
`L ≥ 1` a single `LevelStream` over `start..=end` — always adding the
next level's `LevelStream` when its selection is non-empty, build the
output tables into `L+1`, then emit `Remove` edits for every selected
scope at both levels.  `fuel` bounds the loop (`MAX_LEVEL`
suffices). -/
def majorLoop [LinearOrder K] (opts : MajorOpts) (version : Version K)
    (contents : FileId → List (TsKey K)) (sizeOf : TsKey K → Nat) :
    Nat → Nat → K → K → FileId →
    Except CompactionError (List (VersionEdit K) × List (FileId × Nat))
  | 0, _, _, _, _ => .ok ([], [])
  | fuel + 1, level, mn, mx, g =>
    if level < MAX_LEVEL - 2 ∧ isThresholdExceededMajor opts version level = true then
      let (meetL, startL, endL) := thisLevelScopes opts version mn mx level
      match nextLevelScopes version mn mx level meetL with
      | .error e => .error e
      | .ok (meetLL, startLL, endLL, mn2, mx2) =>
        match
          (if level == 0 then
            Except.ok (meetL.map (fun s => contents s.gen))
          else
            match meetL.head?, meetL.getLast? with
            | some first, some last =>
              Except.ok [levelStreamEntries version contents level startL endL
                first.min last.max]
            | _, _ => Except.error CompactionError.emptyLevel :
            Except CompactionError (List (List (TsKey K)))) with
        | .error e => .error e
        | .ok thisStreams =>
          let llStreams :=
            if meetLL.isEmpty then []
            else
              match meetLL.head?, meetLL.getLast? with
              | some first, some last =>
                [levelStreamEntries version contents (level + 1) startLL endLL
                  first.min last.max]
              | _, _ => []
          let merged := mergeEntries (thisStreams ++ llStreams)
          match buildTables opts sizeOf (level + 1) merged g with
          | .error e => .error e
          | .ok adds =>
            let removes := meetL.map (fun s => VersionEdit.remove level s.gen)
              ++ meetLL.map (fun s => VersionEdit.remove (level + 1) s.gen)
            let deletes := meetL.map (fun s => (s.gen, level))
              ++ meetLL.map (fun s => (s.gen, level + 1))
            match majorLoop opts version contents sizeOf fuel (level + 1)
                mn2 mx2 (g + adds.length) with
            | .error e => .error e
            | .ok (restEdits, restDeletes) =>
              .ok (adds ++ removes ++ restEdits, deletes ++ restDeletes)
    else .ok ([], [])

/-- `Compactor::major_compaction`, started at level 0 with enough
fuel for every level. -/
def majorCompaction [LinearOrder K] (opts : MajorOpts) (version : Version K)
    (contents : FileId → List (TsKey K)) (sizeOf : TsKey K → Nat)
    (mn mx : K) (g : FileId) :
    Except CompactionError (List (VersionEdit K) × List (FileId × Nat)) :=
  majorLoop opts version contents sizeOf MAX_LEVEL 0 mn mx g

/-- Modelled from the spec: ordered insertion of a scope into a
level's vector, keeping it sorted ascending by `min` (spec §3:
"for level ≥ 1 Scopes are disjoint and sorted by min"). -/
def insertByMin [LinearOrder K] (s : Scope K) :
    List (Scope K) → List (Scope K)
  | [] => [s]
  | x :: xs => if s.min ≤ x.min then s :: x :: xs else x :: insertByMin s xs

/-- Modelled from the spec: the effect of one manifest edit on the
per-level scope vectors (`VersionSet::apply_edits`, src/version/set.rs
is not under src/).  `Add` appends at level 0 (arrival order) and
inserts sorted by `min` at level ≥ 1; `Remove` deletes the scope with
that gen; `LatestTimeStamp` only touches the timestamp counter. -/
def applyEdit [LinearOrder K] (slices : List (List (Scope K))) :
    VersionEdit K → List (List (Scope K))
  | .add level scope =>
    if level == 0 then slices.set level (slices.getD level [] ++ [scope])
    else slices.set level (insertByMin scope (slices.getD level []))
  | .remove level gen =>
    slices.set level ((slices.getD level []).filter (fun s => decide (s.gen ≠ gen)))
  | .latestTimeStamp _ => slices

/-- Modelled from the spec: applying a batch of edits in order. -/
def applyEdits [LinearOrder K] (slices : List (List (Scope K)))
    (edits : List (VersionEdit K)) : List (List (Scope K)) :=
  edits.foldl applyEdit slices

/-- Spec §3 invariant, first half: a level's scopes are sorted
ascending by `min`. -/
def levelSortedByMin [LinearOrder K] (l : List (Scope K)) : Prop :=
  l.Pairwise (fun a b => a.min ≤ b.min)

/-- Spec §3 invariant, second half: a level's scopes are pairwise
disjoint as closed key intervals. -/
def levelDisjoint [LinearOrder K] (l : List (Scope K)) : Prop :=
  l.Pairwise (fun a b => a.max < b.min ∨ b.max < a.min)

instance [LinearOrder K] (l : List (Scope K)) :
    Decidable (levelSortedByMin l) := by
  unfold levelSortedByMin; infer_instance

instance [LinearOrder K] (l : List (Scope K)) :
    Decidable (levelDisjoint l) := by
  unfold levelDisjoint; infer_instance

deriving instance DecidableEq for Except

/-- C3: spec scenario S2.  Level 0 holds T1 (gen 1) covering keys
1..3 and T2 (gen 2) covering 4..6; level 1 holds T3 (gen 3) covering
1..3, T4 (gen 4) covering 4..6 and T5 (gen 5) covering 7..9;
`major_threshold_with_sst_size = 2` (remaining options at their
defaults: magnification 10, selection max 4, oldest 3, 256 MiB roll);
compaction window `[2, 5]`.  Major compaction emits exactly
`Add{L=1, scope [1,6]}` then `Remove{0,T1}, Remove{0,T2},
Remove{1,T3}, Remove{1,T4}`, and T5 is not removed.  The scenario's
single-digit string keys "1".."9" are rendered as the naturals 1..9,
which order identically. -/
theorem major_compaction_scenario_s2 :
    majorCompaction (K := Nat)
        ⟨2, 10, 4, 3, 268435456⟩
        ⟨[[⟨1, 3, 1, none⟩, ⟨4, 6, 2, none⟩],
          [⟨1, 3, 3, none⟩, ⟨4, 6, 4, none⟩, ⟨7, 9, 5, none⟩],
          [], [], [], [], []]⟩
        (fun g =>
          if g = 1 then [⟨1, 1⟩, ⟨2, 1⟩, ⟨3, 0⟩]
          else if g = 2 then [⟨4, 1⟩, ⟨5, 1⟩, ⟨6, 0⟩]
          else if g = 3 then [⟨1, 0⟩, ⟨2, 0⟩, ⟨3, 0⟩]
          else if g = 4 then [⟨4, 0⟩, ⟨5, 0⟩, ⟨6, 0⟩]
          else if g = 5 then [⟨7, 0⟩, ⟨8, 0⟩, ⟨9, 0⟩]
          else [])
        (fun _ => 1) 2 5 100 =
      .ok ([.add 1 ⟨1, 6, 100, none⟩,
            .remove 0 1, .remove 0 2, .remove 1 3, .remove 1 4],
           [(1, 0), (2, 0), (3, 1), (4, 1)])
    ∧ VersionEdit.remove 1 5 ∉
        [VersionEdit.add 1 (⟨1, 6, 100, none⟩ : Scope Nat),
         .remove 0 1, .remove 0 2, .remove 1 3, .remove 1 4] := by
  constructor
  · decide
  · decide

/-- C5: a major-compaction step does NOT preserve the level-(L≥1)
disjointness invariant.  Starting from a Version whose levels satisfy
the invariant — level 0 = [gen 1 covering 1..9], level 1 =
[gen 2 covering 2..3] — with `major_threshold_with_sst_size = 1`,
`level_sst_magnification = 2`, and the compaction window `[1, 9]`:
`next_level_scopes` keeps only level-1 scopes that CONTAIN the refined
`min` or `max`, so the scope 2..3 (strictly inside 1..9) is neither
merged nor removed, while the emitted `Add{L=1, scope [1,9]}` overlaps
it.  After applying the emitted edits, level 1 holds [1,9] and [2,3]:
sorted by min, but not disjoint. -/
theorem major_compaction_step_breaks_level1_disjointness :
    (∀ l ∈ (([[⟨1, 9, 1, none⟩], [⟨2, 3, 2, none⟩], [], [], [], [], []]) :
        List (List (Scope Nat))).drop 1, levelDisjoint l ∧ levelSortedByMin l)
    ∧ majorCompaction (K := Nat)
        ⟨1, 2, 4, 3, 268435456⟩
        ⟨[[⟨1, 9, 1, none⟩], [⟨2, 3, 2, none⟩], [], [], [], [], []]⟩
        (fun g =>
          if g = 1 then
            [⟨1, 0⟩, ⟨2, 0⟩, ⟨3, 0⟩, ⟨4, 0⟩, ⟨5, 0⟩, ⟨6, 0⟩, ⟨7, 0⟩, ⟨8, 0⟩, ⟨9, 0⟩]
          else if g = 2 then [⟨2, 0⟩, ⟨3, 0⟩]
          else [])
        (fun _ => 1) 1 9 50 =
      .ok ([.add 1 ⟨1, 9, 50, none⟩, .remove 0 1], [(1, 0)])
    ∧ ¬ (∀ l ∈ (applyEdits
          ([[⟨1, 9, 1, none⟩], [⟨2, 3, 2, none⟩], [], [], [], [], []] :
            List (List (Scope Nat)))
          [.add 1 ⟨1, 9, 50, none⟩, .remove 0 1]).drop 1,
        levelDisjoint l) := by
  refine ⟨by decide, by decide, ?_⟩
  intro hall
  have h1 : levelDisjoint
      ([⟨1, 9, 50, none⟩, ⟨2, 3, 2, none⟩] : List (Scope Nat)) := by
    apply hall
    decide
  revert h1
  decide

theorem selectLoop_length_le [LinearOrder K] (maxNum : Nat) (mn mx : K) :
    ∀ (l : List (Scope K)) (cnt : Nat),
      (selectLoop maxNum mn mx cnt l).length ≤ maxNum + 1 - cnt := by
  intro l
  induction l with
  | nil => intro cnt; simp [selectLoop]
  | cons s rest ih =>
    intro cnt
    by_cases h : (s.contains mn ∨ s.contains mx) ∧ cnt ≤ maxNum
    · rw [selectLoop, if_pos h]
      have := ih (cnt + 1)
      simp only [List.length_cons]
      omega
    · rw [selectLoop, if_neg h]
      simp

theorem selectLoop_mem_contains [LinearOrder K] (maxNum : Nat) (mn mx : K) :
    ∀ (l : List (Scope K)) (cnt : Nat) (s : Scope K),
      s ∈ selectLoop maxNum mn mx cnt l → s.contains mn ∨ s.contains mx := by
  intro l
  induction l with
  | nil => intro cnt s hs; simp [selectLoop] at hs
  | cons x rest ih =>
    intro cnt s hs
    by_cases h : (x.contains mn ∨ x.contains mx) ∧ cnt ≤ maxNum
    · rw [selectLoop, if_pos h] at hs
      rcases List.mem_cons.mp hs with rfl | hs
      · exact h.1
      · exact ih (cnt + 1) s hs
    · rw [selectLoop, if_neg h] at hs
      simp at hs

theorem fbLoop_eq_take [LinearOrder K] (maxNum : Nat) :
    ∀ (l : List (Scope K)) (cnt : Nat),
      fbLoop maxNum cnt l = l.take (maxNum + 1 - cnt) := by
  intro l
  induction l with
  | nil => intro cnt; simp [fbLoop]
  | cons s rest ih =>
    intro cnt
    by_cases h : maxNum < cnt
    · rw [fbLoop, if_pos h]
      have : maxNum + 1 - cnt = 0 := by omega
      rw [this]
      simp
    · rw [fbLoop, if_neg h]
      rw [ih (cnt + 1)]
      have : maxNum + 1 - cnt = (maxNum + 1 - (cnt + 1)) + 1 := by omega
      rw [this]
      simp [List.take_succ_cons]

/-- C8 (amended): `this_level_scopes(L, min, max)` starts at
`scope_search(min)` and selects consecutive scopes each of which
CONTAINS `min` or `max` (hence intersects `[min,max]`; a scope lying
strictly inside the window stops the selection), keeping at most
`major_l_selection_table_max_num + 1` scopes — the count is compared
before each push, so one more than the option can be selected.  When
that initial selection is empty (which can happen even though some
scope intersects the window), it falls back to the oldest
`min(major_default_oldest_table_num, level length)` scopes, under the
same `max_num + 1` cap. -/
theorem this_level_scopes_characterization [LinearOrder K]
    (opts : MajorOpts) (version : Version K) (mn mx : K) (level : Nat) :
    (thisLevelScopes opts version mn mx level).1.length
        ≤ opts.majorLSelectionTableMaxNum + 1
    ∧ (∀ s ∈ (thisLevelScopes opts version mn mx level).1,
        selectLoop opts.majorLSelectionTableMaxNum mn mx 0
            ((version.levelSlice.getD level []).drop
              (scopeSearch mn (version.levelSlice.getD level []))) ≠ [] →
          s.contains mn ∨ s.contains mx)
    ∧ (selectLoop opts.majorLSelectionTableMaxNum mn mx 0
          ((version.levelSlice.getD level []).drop
            (scopeSearch mn (version.levelSlice.getD level []))) ≠ [] →
        thisLevelScopes opts version mn mx level =
          (selectLoop opts.majorLSelectionTableMaxNum mn mx 0
              ((version.levelSlice.getD level []).drop
                (scopeSearch mn (version.levelSlice.getD level []))),
            scopeSearch mn (version.levelSlice.getD level []),
            scopeSearch mn (version.levelSlice.getD level []) +
              (selectLoop opts.majorLSelectionTableMaxNum mn mx 0
                ((version.levelSlice.getD level []).drop
                  (scopeSearch mn (version.levelSlice.getD level [])))).length - 1))
    ∧ (selectLoop opts.majorLSelectionTableMaxNum mn mx 0
          ((version.levelSlice.getD level []).drop
            (scopeSearch mn (version.levelSlice.getD level []))) = [] →
        thisLevelScopes opts version mn mx level =
          (((version.levelSlice.getD level []).take
              (min opts.majorDefaultOldestTableNum
                (version.levelSlice.getD level []).length)).take
            (opts.majorLSelectionTableMaxNum + 1),
            0,
            min opts.majorDefaultOldestTableNum
              (version.levelSlice.getD level []).length - 1)) := by
  have hmain : ¬ (selectLoop opts.majorLSelectionTableMaxNum mn mx 0
        ((version.levelSlice.getD level []).drop
          (scopeSearch mn (version.levelSlice.getD level [])))).isEmpty = true →
      thisLevelScopes opts version mn mx level =
      (selectLoop opts.majorLSelectionTableMaxNum mn mx 0
          ((version.levelSlice.getD level []).drop
            (scopeSearch mn (version.levelSlice.getD level []))),
        scopeSearch mn (version.levelSlice.getD level []),
        scopeSearch mn (version.levelSlice.getD level []) +
          (selectLoop opts.majorLSelectionTableMaxNum mn mx 0
            ((version.levelSlice.getD level []).drop
              (scopeSearch mn (version.levelSlice.getD level [])))).length - 1) := by
    intro hne
    unfold thisLevelScopes
    rw [if_neg hne]
  have hfb : (selectLoop opts.majorLSelectionTableMaxNum mn mx 0
        ((version.levelSlice.getD level []).drop
          (scopeSearch mn (version.levelSlice.getD level [])))).isEmpty = true →
      thisLevelScopes opts version mn mx level =
      (((version.levelSlice.getD level []).take
          (min opts.majorDefaultOldestTableNum
            (version.levelSlice.getD level []).length)).take
          (opts.majorLSelectionTableMaxNum + 1),
        0, min opts.majorDefaultOldestTableNum
          (version.levelSlice.getD level []).length - 1) := by
    intro hemp
    unfold thisLevelScopes
    rw [if_pos hemp]
    rw [fbLoop_eq_take]
    simp
  refine ⟨?_, ?_, ?_, ?_⟩
  · by_cases hne : (selectLoop opts.majorLSelectionTableMaxNum mn mx 0
        ((version.levelSlice.getD level []).drop
          (scopeSearch mn (version.levelSlice.getD level [])))).isEmpty
    · rw [hfb hne]
      simp
    · rw [hmain hne]
      have := selectLoop_length_le opts.majorLSelectionTableMaxNum mn mx
        ((version.levelSlice.getD level []).drop
          (scopeSearch mn (version.levelSlice.getD level []))) 0
      simpa using this
  · intro s hs hne
    have hne' : ¬ (selectLoop opts.majorLSelectionTableMaxNum mn mx 0
        ((version.levelSlice.getD level []).drop
          (scopeSearch mn (version.levelSlice.getD level [])))).isEmpty = true := by
      intro hcon
      rw [List.isEmpty_iff] at hcon
      exact hne hcon
    rw [hmain hne'] at hs
    exact selectLoop_mem_contains _ _ _ _ _ _ hs
  · intro hne
    have hne' : ¬ (selectLoop opts.majorLSelectionTableMaxNum mn mx 0
        ((version.levelSlice.getD level []).drop
          (scopeSearch mn (version.levelSlice.getD level [])))).isEmpty = true := by
      intro hcon
      rw [List.isEmpty_iff] at hcon
      exact hne hcon
    exact hmain hne'
  · intro hemp
    exact hfb (List.isEmpty_iff.mpr hemp)

/-- C8 (witness): on a level holding the single scope 0..10, window
`[5, 5]`, with `major_l_selection_table_max_num = 4`, the main path
selects that scope with `(start, end) = (0, 0)`. -/
theorem this_level_scopes_characterization_witness :
    selectLoop (K := Nat) 4 5 5 0 [⟨0, 10, 1, none⟩] ≠ []
    ∧ thisLevelScopes (K := Nat) ⟨1, 1, 4, 3, 0⟩ ⟨[[⟨0, 10, 1, none⟩]]⟩ 5 5 0 =
        (selectLoop (K := Nat) 4 5 5 0 [⟨0, 10, 1, none⟩], 0,
          0 + (selectLoop (K := Nat) 4 5 5 0 [⟨0, 10, 1, none⟩]).length - 1) :=
  ⟨by decide,
    (this_level_scopes_characterization (K := Nat) ⟨1, 1, 4, 3, 0⟩
      ⟨[[⟨0, 10, 1, none⟩]]⟩ 5 5 0).2.2.1 (by decide)⟩

/-- C8 (counterexample): with `major_l_selection_table_max_num = 0`
the selection still keeps 1 scope — the cap is checked BEFORE each
push, so up to `max_num + 1` scopes are selected, refuting "at most
major_l_selection_table_max_num scopes". -/
theorem this_level_scopes_cap_off_by_one :
    (thisLevelScopes (K := Nat) ⟨1, 1, 0, 3, 0⟩ ⟨[[⟨0, 10, 1, none⟩]]⟩
        5 5 0).1.length = 1
    ∧ ¬ ((thisLevelScopes (K := Nat) ⟨1, 1, 0, 3, 0⟩ ⟨[[⟨0, 10, 1, none⟩]]⟩
        5 5 0).1.length ≤ 0) := by
  constructor
  · decide
  · decide

/-- `Order` (src/option.rs): scan direction; `None` means ascending. -/
inductive Order where
  | asc | desc
deriving DecidableEq, Repr

/-- Modelled from the spec: `SsTableScan` (src/ondisk/scan.rs is not
under src/).  `SsTable::scan` (src/ondisk/sstable.rs:113-141) builds a
parquet stream with an optional row limit, the page/row filter derived
from the key range and `read_ts` (`get_range_filter`,
src/ondisk/arrows.rs, also not under src/ — abstracted as
`rangeFilter`), the projection, and the requested order; `Desc` emits
the filtered, limited, projected rows in reverse. -/
def ssTableScan {α β : Type} (rows : List α) (rangeFilter : α → Bool)
    (limit : Option Nat) (proj : α → β) (order : Option Order) : List β :=
  let filtered := rows.filter rangeFilter
  let limited := match limit with
    | some n => filtered.take n
    | none => filtered
  let projected := limited.map proj
  match order with
  | some .desc => projected.reverse
  | _ => projected

/-- C9: over the same table rows, range/read_ts filter, limit and
projection, a `Desc` scan emits exactly the reverse of the default
(ascending) scan; in particular the table holding rows
"hello", "world" emits "hello", "world" forward and
"world", "hello" reversed. -/
theorem sstable_scan_desc_is_reverse_of_asc :
    (∀ (α β : Type) (rows : List α) (rangeFilter : α → Bool)
        (limit : Option Nat) (proj : α → β),
      ssTableScan rows rangeFilter limit proj (some .desc) =
        (ssTableScan rows rangeFilter limit proj none).reverse)
    ∧ ssTableScan ["hello", "world"] (fun _ => true) none id none =
        ["hello", "world"]
    ∧ ssTableScan ["hello", "world"] (fun _ => true) none id (some .desc) =
        ["world", "hello"] :=
  ⟨fun _ _ _ _ _ _ => rfl, rfl, rfl⟩

end Tonbo
